import Mathlib

/-
Verification of the GObject-Introspection documentation extension
(hotdoc_gi_extension/gi_extension.py) against its specification.

The GIR XML metadata is modelled by the inductive type XNode (tag,
attributes, children).  An lxml element knows its parent, so functions
that call getparent() operate on a pair of the ancestor chain (nearest
ancestor first) and the node itself (type ANode below).  Python dicts
over string keys are modelled as association lists with last-write-wins
lookup or in-place update; Python code paths that raise (KeyError on a
missing attribute, parsing a missing file) are modelled with Option,
none standing for the raised exception.
-/

/-- An XML element: tag in Clark notation, attributes, child elements. -/
inductive XNode where
  | node (tag : String) (attrs : List (String × String)) (children : List XNode)

def XNode.tag : XNode → String
  | .node t _ _ => t

def XNode.attrs : XNode → List (String × String)
  | .node _ a _ => a

def XNode.children : XNode → List XNode
  | .node _ _ cs => cs

mutual
def XNode.deq : (a b : XNode) → Decidable (a = b)
  | .node t1 a1 c1, .node t2 a2 c2 =>
    match decEq t1 t2 with
    | isFalse h => isFalse (by intro he; cases he; exact h rfl)
    | isTrue h1 =>
      match decEq a1 a2 with
      | isFalse h => isFalse (by intro he; cases he; exact h rfl)
      | isTrue h2 =>
        match XNode.deqList c1 c2 with
        | isFalse h => isFalse (by intro he; cases he; exact h rfl)
        | isTrue h3 => isTrue (by rw [h1, h2, h3])
def XNode.deqList : (a b : List XNode) → Decidable (a = b)
  | [], [] => isTrue rfl
  | [], _ :: _ => isFalse (by intro h; cases h)
  | _ :: _, [] => isFalse (by intro h; cases h)
  | x :: xs, y :: ys =>
    match XNode.deq x y with
    | isFalse h => isFalse (by intro he; cases he; exact h rfl)
    | isTrue h1 =>
      match XNode.deqList xs ys with
      | isFalse h => isFalse (by intro he; cases he; exact h rfl)
      | isTrue h2 => isTrue (by rw [h1, h2])
end

instance : DecidableEq XNode := XNode.deq

/-- Attribute lookup, the model of Python's node.attrib.get(k). -/
def XNode.attr (n : XNode) (k : String) : Option String :=
  (n.attrs.find? (fun p => p.1 == k)).map Prod.snd

/-- A node together with its chain of ancestors, nearest ancestor first.
This is the information an lxml element reachable through getparent()
carries. -/
abbrev ANode : Type := List XNode × XNode

/-- Python's node.getparent(): the nearest ancestor, if any. -/
def ANode.getparent (a : ANode) : Option ANode :=
  match a.1 with
  | [] => none
  | p :: ps => some (ps, p)

mutual
/-- All proper descendants of a node in document order, each paired with
its ancestor chain (nearest first).  This is the node set the xpath
expression .//* selects. -/
def descendantsFrom (anc : List XNode) : XNode → List ANode
  | XNode.node t a cs => descendantsList (XNode.node t a cs :: anc) cs
def descendantsList (anc : List XNode) : List XNode → List ANode
  | [] => []
  | c :: rest => (anc, c) :: (descendantsFrom anc c ++ descendantsList anc rest)
end

/-- Lookup in an association list modelling a Python dict (first match;
keys are kept unique by assocSet). -/
def lookupAssoc (m : List (String × String)) (k : String) : Option String :=
  (m.find? (fun p => p.1 == k)).map Prod.snd

/-- Python dict assignment d[k] = v: replace the binding in place if the
key is present, append it otherwise. -/
def assocSet (m : List (String × String)) (k v : String) : List (String × String) :=
  if m.any (fun p => p.1 == k) then
    m.map (fun p => if p.1 == k then (k, v) else p)
  else m ++ [(k, v)]

def obr : String := "\x7b"

def cbr : String := "\x7d"

/-- Clark notation for a namespaced XML name, as lxml renders it. -/
def clarkName (ns nm : String) : String := obr ++ ns ++ cbr ++ nm

def coreNS : String := "http://www.gtk.org/introspection/core/1.0"

def cNS : String := "http://www.gtk.org/introspection/c/1.0"

def glibNS : String := "http://www.gtk.org/introspection/glib/1.0"

def cIdentifierKey : String := clarkName cNS "identifier"

def cTypeKey : String := clarkName cNS "type"

def glibTypeNameKey : String := clarkName glibNS "type-name"

def coreTypeTag : String := clarkName coreNS "type"

def coreArrayTag : String := clarkName coreNS "array"

def classTag : String := clarkName coreNS "class"

def propertyTag : String := clarkName coreNS "property"

def signalTag : String := clarkName glibNS "signal"

def virtualMethodTag : String := clarkName coreNS "virtual-method"

def includeTag : String := clarkName coreNS "include"

def namespaceTag : String := clarkName coreNS "namespace"

def identPrefixesKey : String := clarkName cNS "identifier-prefixes"

/-- GIExtension.__get_gi_name_components, the parent-walking part: walk
up the ancestor chain prepending each parent's name attribute, stopping
at the first ancestor without one (the try/except KeyError: break). -/
def giAux : List XNode → List String → List String
  | [], acc => acc
  | p :: ps, acc =>
    match p.attr "name" with
    | none => acc
    | some s => giAux ps (s :: acc)

/-- GIExtension.__get_gi_name_components: the node's own name attribute
(a KeyError if absent, hence Option) followed by the walk up the
ancestors. -/
def giNameComponents (a : ANode) : Option (List String) :=
  (a.2.attr "name").map (fun nm => giAux a.1 [nm])

/-- Bindings inserted by the first xpath pass of GIExtension.__cache_nodes:
every descendant with a c:identifier attribute, keyed by that identifier. -/
def identBindings (root : XNode) : List (String × XNode) :=
  (descendantsFrom [] root).filterMap
    (fun a => (a.2.attr cIdentifierKey).map (fun v => (v, a.2)))

/-- Bindings inserted by the second xpath pass of GIExtension.__cache_nodes:
every descendant that is not a core:type or core:array element and has a
c:type attribute, keyed by that type name, class elements additionally
keyed by name::name. -/
def typeBindings (root : XNode) : List (String × XNode) :=
  (descendantsFrom [] root).flatMap
    (fun a =>
      if a.2.tag = coreTypeTag ∨ a.2.tag = coreArrayTag then []
      else
        match a.2.attr cTypeKey with
        | none => []
        | some v =>
          (v, a.2) :: (if a.2.tag = classTag then [(v ++ "::" ++ v, a.2)] else []))

/-- The second pass of GIExtension.__cache_nodes also records every class
element in __class_nodes under its dotted GI name; computing that name
reads node.attrib of the class node, which raises KeyError when the
name attribute is missing, aborting __cache_nodes.  This guard holds
exactly when no such abort happens. -/
def classNamesOk (root : XNode) : Bool :=
  (descendantsFrom [] root).all
    (fun a =>
      if a.2.tag = classTag ∧ (a.2.attr cTypeKey).isSome then
        (giNameComponents a).isSome
      else true)

/-- GIExtension.__class_nodes as populated by the second pass of
__cache_nodes: each class element with a c:type attribute, keyed by its
dot-joined GI name components. -/
def classNodesOf (root : XNode) : List (String × XNode) :=
  (descendantsFrom [] root).filterMap
    (fun a =>
      if a.2.tag = classTag ∧ (a.2.attr cTypeKey).isSome then
        (giNameComponents a).map (fun cs => (String.intercalate "." cs, a.2))
      else none)

/-- Bindings inserted for one core:property node: the parent's c:type
(a KeyError if the parent has none), a colon, the property name. -/
def propItem (a : ANode) : Option (String × XNode) :=
  match a.1 with
  | [] => none
  | p :: _ =>
    match p.attr cTypeKey, a.2.attr "name" with
    | some pt, some nm => some (pt ++ ":" ++ nm, a.2)
    | _, _ => none

/-- Bindings inserted by the property pass of GIExtension.__cache_nodes. -/
def propBindings (root : XNode) : Option (List (String × XNode)) :=
  ((descendantsFrom [] root).filter (fun a => a.2.tag = propertyTag)).mapM propItem

/-- Bindings inserted for one glib:signal node: parent c:type, two
colons, the signal name. -/
def sigItem (a : ANode) : Option (String × XNode) :=
  match a.1 with
  | [] => none
  | p :: _ =>
    match p.attr cTypeKey, a.2.attr "name" with
    | some pt, some nm => some (pt ++ "::" ++ nm, a.2)
    | _, _ => none

/-- Bindings inserted by the signal pass of GIExtension.__cache_nodes. -/
def sigBindings (root : XNode) : Option (List (String × XNode)) :=
  ((descendantsFrom [] root).filter (fun a => a.2.tag = signalTag)).mapM sigItem

/-- Bindings inserted for one core:virtual-method node: parent c:type,
three colons, the method name. -/
def vmethodItem (a : ANode) : Option (String × XNode) :=
  match a.1 with
  | [] => none
  | p :: _ =>
    match p.attr cTypeKey, a.2.attr "name" with
    | some pt, some nm => some (pt ++ ":::" ++ nm, a.2)
    | _, _ => none

/-- Bindings inserted by the virtual-method pass of GIExtension.__cache_nodes. -/
def vmethodBindings (root : XNode) : Option (List (String × XNode)) :=
  ((descendantsFrom [] root).filter (fun a => a.2.tag = virtualMethodTag)).mapM vmethodItem

/-- The sequence of insertions GIExtension.__cache_nodes performs into
__node_cache for one GIR root, in program order; none models the
KeyError aborts of the property, signal and virtual-method passes. -/
def cacheBindingsOpt (root : XNode) : Option (List (String × XNode)) :=
  if classNamesOk root then
    match propBindings root, sigBindings root, vmethodBindings root with
    | some p3, some p4, some p5 =>
      some (identBindings root ++ typeBindings root ++ p3 ++ p4 ++ p5)
    | _, _, _ => none
  else none

/-- Dictionary lookup over the insertion sequence: the last write wins,
exactly as for the Python dict __node_cache. -/
def nodeCacheLookup (bs : List (String × XNode)) (k : String) : Option XNode :=
  (bs.reverse.find? (fun p => p.1 == k)).map Prod.snd

/-- The name-translation dictionaries and per-page formatting state of a
GIExtension instance (the parts of its mutable state the verified
operations read or write). -/
structure ExtState where
  language : Option String
  languages : List String
  cNames : List (String × String)
  pythonNames : List (String × String)
  javascriptNames : List (String × String)
  translatedNames : List (String × String)
  fundamentals : String
  signalsConnected : Bool
  dirs : List String
  formatted : List String
deriving DecidableEq

/-- Python components[-1] = 'prototype.' + components[-1]: prefix the
last element of the list. -/
def protoLast : List String → List String
  | [] => []
  | [x] => ["prototype." ++ x]
  | x :: y :: xs => x :: protoLast (y :: xs)

/-- GIExtension.__add_translations: compute the GI name components of
the node, join them with dots, and record the Python, JavaScript and C
display names for unique_name according to whether the node carries a
c:identifier or a c:type attribute; returns the (possibly mutated)
components and the dotted GI name, none modelling the KeyError on a
node without a name attribute. -/
def addTranslations (st : ExtState) (uniqueName : String) (a : ANode) :
    Option (ExtState × List String × String) :=
  match giNameComponents a with
  | none => none
  | some components =>
    let giName := String.intercalate "." components
    if (a.2.attr cIdentifierKey).isSome then
      let components' := protoLast components
      some ({st with
              pythonNames := assocSet st.pythonNames uniqueName giName,
              javascriptNames :=
                assocSet st.javascriptNames uniqueName (String.intercalate "." components'),
              cNames := assocSet st.cNames uniqueName uniqueName},
            components', giName)
    else if (a.2.attr cTypeKey).isSome then
      some ({st with
              pythonNames := assocSet st.pythonNames uniqueName giName,
              javascriptNames := assocSet st.javascriptNames uniqueName giName,
              cNames := assocSet st.cNames uniqueName uniqueName},
            components, giName)
    else some (st, components, giName)

/-- Python's substring test c in s for a single character. -/
def pyContains (s : String) (c : Char) : Bool := s.data.any (fun x => x == c)

/-- GIExtension.__get_klass_name: the c:type attribute if present and
non-empty, else the glib:type-name attribute. -/
def getKlassName (k : XNode) : Option String :=
  match k.attr cTypeKey with
  | some s => if s = "" then k.attr glibTypeNameKey else some s
  | none => k.attr glibTypeNameKey

/-- A QualifiedSymbol as __create_hierarchy builds it: one Link carrying
the klass name (which Python may leave as None). -/
structure QSym where
  name : Option String
deriving DecidableEq

/-- Outcome of one iteration of the while loop of
GIExtension.__create_hierarchy: the loop breaks (no parent attribute or
an empty one), raises (qualification impossible or the parent name not
in __class_nodes), or steps to the parent class under its qualified
name. -/
inductive StepRes where
  | done
  | err
  | next (qname : String) (p : ANode)

/-- The qualification step of __create_hierarchy: a parent name without
a dot is prefixed with the name of the class node's enclosing namespace
(none modelling the AttributeError or KeyError when that name cannot be
read). -/
def qualifiedParentName (a : ANode) (pn : String) : Option String :=
  if pyContains pn '.' then some pn
  else ((a.getparent).bind (fun r => r.2.attr "name")).map (fun ns => ns ++ "." ++ pn)

/-- One iteration of the parent walk: read the parent attribute, qualify
an undotted name with the enclosing namespace's name, and look the
result up in the class-node table cn. -/
def parentStep (cn : String → Option ANode) (a : ANode) : StepRes :=
  match a.2.attr "parent" with
  | none => .done
  | some pn =>
    if pn = "" then .done
    else
      match qualifiedParentName a pn with
      | none => .err
      | some q =>
        match cn q with
        | none => .err
        | some p => .next q p

/-- The children map __gir_children_map: for each qualified parent name,
the klass names already recorded as its children, with the
QualifiedSymbol stored for each. -/
abbrev ChildrenMap : Type := List (String × List (Option String × QSym))

/-- Reading __gir_children_map[q] on the defaultdict: the recorded
children, or an empty dict for an absent key. -/
def childrenOf (cm : ChildrenMap) (q : String) : List (Option String × QSym) :=
  match cm.find? (fun p => p.1 == q) with
  | some p => p.2
  | none => []

/-- The body lines of __create_hierarchy that record the current class
in its parent's children dict when its klass name is not yet there. -/
def updateChildren (cm : ChildrenMap) (q : String) (kn : Option String) : ChildrenMap :=
  let cs := childrenOf cm q
  if cs.any (fun p => p.1 = kn) then cm
  else
    let cs' := cs ++ [(kn, QSym.mk kn)]
    if cm.any (fun p => p.1 == q) then
      cm.map (fun p => if p.1 == q then (q, cs') else p)
    else cm ++ [(q, cs')]

/-- The while loop of GIExtension.__create_hierarchy, with the list of
appended QualifiedSymbols as accumulator and the children map threaded
through; fuel bounds the number of iterations, none modelling both a
raised KeyError and fuel exhaustion. -/
def hierLoop (cn : String → Option ANode) :
    Nat → ANode → List QSym → ChildrenMap → Option (List QSym × ChildrenMap)
  | 0, _, _, _ => none
  | fuel + 1, k, acc, cm =>
    match parentStep cn k with
    | .done => some (acc, cm)
    | .err => none
    | .next q p =>
      let cm' := updateChildren cm q (getKlassName k.2)
      hierLoop cn fuel p (acc ++ [QSym.mk (getKlassName p.2)]) cm'

/-- GIExtension.__create_hierarchy: run the while loop from the given
class node and reverse the accumulated list. -/
def createHierarchy (cn : String → Option ANode) (fuel : Nat) (k : ANode)
    (cm : ChildrenMap) : Option (List QSym × ChildrenMap) :=
  (hierLoop cn fuel k [] cm).map (fun r => (r.1.reverse, r.2))

/-- The ancestor chain of a class node: repeatedly follow the parent
attribute through the class-node table, immediate parent first. -/
def parentChain (cn : String → Option ANode) : Nat → ANode → Option (List ANode)
  | 0, _ => none
  | fuel + 1, k =>
    match parentStep cn k with
    | .done => some []
    | .err => none
    | .next _ p => (parentChain cn fuel p).map (fun ps => p :: ps)

/-- Class-node table built from an association list, as __class_nodes is. -/
def lookupANode (cnList : List (String × ANode)) (q : String) : Option ANode :=
  (cnList.find? (fun p => p.1 == q)).map Prod.snd

/-- One step of the parent walk neither raises nor increases the rank:
the decidable precondition of the termination theorem. -/
def stepOkB (cn : String → Option ANode) (rank : ANode → Nat) (a : ANode) : Bool :=
  match parentStep cn a with
  | .done => true
  | .err => false
  | .next _ p => decide (rank p < rank a)

/-- A parsed GIR file: its root element and the XML namespace prefix map
lxml exposes as root.nsmap (a None key marks the default namespace). -/
structure GirFile where
  root : XNode
  xmlns : List (Option String × String)

/-- The mutable state of a GIRParser, with the per-namespace dictionaries
(__parse_namespace and everything below it) abstracted into data. -/
structure ParserState (α : Type) where
  parsedFiles : List String
  nsName : Option String
  identPfx : Option String
  nsmap : List (String × String)
  data : α

/-- Python self.nsmap.update over the prefix map of a file's root, with
None keys dropped. -/
def nsmapUpdate (old : List (String × String)) (fresh : List (Option String × String)) :
    List (String × String) :=
  (fresh.filterMap (fun p => p.1.map (fun k => (k, p.2)))).foldl
    (fun m kv => assocSet m kv.1 kv.2) old

/-- The child loop at the end of GIRParser.__parse_gir_file: core:namespace
children are handed to __parse_namespace (abstracted as procNs — the
claim holds whatever it does to the dictionaries), core:include children
are resolved to a gir file (None aborting with an exception in
etree.parse) and parsed recursively through pf. -/
def parseChildrenWith {α : Type} (resolve : String → Option String)
    (pf : ParserState α → String → Option (ParserState α))
    (procNs : List (String × String) → α → XNode → α) :
    ParserState α → List XNode → Option (ParserState α)
  | st, [] => some st
  | st, c :: rest =>
    if c.tag = namespaceTag then
      parseChildrenWith resolve pf procNs {st with data := procNs st.nsmap st.data c} rest
    else if c.tag = includeTag then
      match c.attr "name", c.attr "version" with
      | some nm, some ver =>
        match resolve (nm ++ "-" ++ ver ++ ".gir") with
        | none => none
        | some path =>
          match pf st path with
          | none => none
          | some st' => parseChildrenWith resolve pf procNs st' rest
      | _, _ => none
    else parseChildrenWith resolve pf procNs st rest

/-- The namespace-discovery step of GIRParser.__parse_gir_file: on the
first file parsed, read the core:namespace child of the root and its
name and c:identifier-prefixes attributes (none modelling the raised
AttributeError or KeyError). -/
def setNamespaceInfo {α : Type} (st : ParserState α) (gf : GirFile) :
    Option (ParserState α) :=
  if st.nsName = none then
    match gf.root.children.find? (fun c => c.tag == namespaceTag) with
    | none => none
    | some ns =>
      match ns.attr "name", ns.attr identPrefixesKey with
      | some nm, some pfx => some {st with nsName := some nm, identPfx := some pfx}
      | _, _ => none
  else some st

/-- GIRParser.__parse_gir_file: return unchanged if the path was already
parsed, otherwise record it, read the file (files maps a path to its
parsed content), set the namespace name and identifier prefixes on first
use, merge the prefix map, and process the root's children; none models
a raised exception or fuel exhaustion on include chains. -/
def parseGirFile {α : Type} (files : String → Option GirFile) (resolve : String → Option String)
    (procNs : List (String × String) → α → XNode → α) :
    Nat → ParserState α → String → Option (ParserState α)
  | 0, _, _ => none
  | fuel + 1, st, path =>
    if path ∈ st.parsedFiles then some st
    else
      match files path with
      | none => none
      | some gf =>
        match setNamespaceInfo {st with parsedFiles := st.parsedFiles ++ [path]} gf with
        | none => none
        | some st2 =>
          parseChildrenWith resolve (parseGirFile files resolve procNs fuel) procNs
            {st2 with nsmap := nsmapUpdate st2.nsmap gf.xmlns} gf.root.children

/-- The state GIExtension.__cache_nodes threads through included files:
the set of gir paths already parsed and the node-cache insertions so far. -/
structure CState where
  parsedGirs : List String
  cache : List (String × XNode)
deriving DecidableEq

/-- The include loop at the end of GIExtension.__cache_nodes: resolve
each core:include to a gir file (an unresolvable one is reported and
skipped), skip it when its path was already parsed, otherwise record the
path and cache the included file's nodes through recur. -/
def procIncludesWith (resolve : String → Option String) (files : String → Option GirFile)
    (recur : CState → XNode → Option CState) :
    CState → List XNode → Option CState
  | st, [] => some st
  | st, inc :: rest =>
    if inc.tag = includeTag then
      match inc.attr "name", inc.attr "version" with
      | some nm, some ver =>
        match resolve (nm ++ "-" ++ ver ++ ".gir") with
        | none => procIncludesWith resolve files recur st rest
        | some path =>
          if path ∈ st.parsedGirs then procIncludesWith resolve files recur st rest
          else
            match files path with
            | none => none
            | some gf =>
              match recur {st with parsedGirs := st.parsedGirs ++ [path]} gf.root with
              | none => none
              | some st' => procIncludesWith resolve files recur st' rest
      | _, _ => none
    else procIncludesWith resolve files recur st rest

/-- GIExtension.__cache_nodes over a GIR root: append the root's own
insertion sequence to the cache, then process its include children. -/
def cacheNodes (resolve : String → Option String) (files : String → Option GirFile) :
    Nat → CState → XNode → Option CState
  | 0, _, _ => none
  | fuel + 1, st, root =>
    match cacheBindingsOpt root with
    | none => none
    | some bs =>
      procIncludesWith resolve files (cacheNodes resolve files fuel)
        {st with cache := st.cache ++ bs} root.children

/-- The dynamic class of a documentation symbol, as far as
GIExtension.__update_symbol dispatches on it: a FunctionSymbol (or
subclass), exactly a StructSymbol, or anything else. -/
inductive SymKind where
  | function
  | struct
  | other
deriving DecidableEq

/-- A documentation symbol handed to __update_symbol: its unique name
and its dispatch class. -/
structure PySymbol where
  uniqueName : String
  kind : SymKind
deriving DecidableEq

/-- GIExtension.__update_symbol: look the symbol's unique name up in the
node cache; with no node, return the empty list with the symbol
untouched; with one, dispatch to __update_function (which mutates the
symbol in place and adds nothing, abstracted as updFn) or
__update_struct (which may also return new symbols, abstracted as
updSt). -/
def updateSymbol (cache : String → Option XNode)
    (updFn : PySymbol → XNode → PySymbol)
    (updSt : PySymbol → XNode → List PySymbol × PySymbol)
    (sym : PySymbol) : List PySymbol × PySymbol :=
  match cache sym.uniqueName with
  | none => ([], sym)
  | some node =>
    match sym.kind with
    | .function => ([], updFn sym node)
    | .struct => updSt sym node
    | .other => ([], sym)

/-- os.path.join for two POSIX path components. -/
def pathJoin (a b : String) : String :=
  if b.startsWith "/" then b
  else if a = "" ∨ a.endsWith "/" then a ++ b
  else a ++ "/" ++ b

/-- GIExtension.setup_language: store the language, reconnect the three
translation signals when it is not None, and make __translated_names the
table of the chosen language, the empty dict for anything else. -/
def setupLanguage (st : ExtState) (language : Option String) : ExtState :=
  { st with
    language := language,
    signalsConnected := language.isSome,
    translatedNames :=
      match language with
      | some "c" => st.cNames
      | some "python" => st.pythonNames
      | some "javascript" => st.javascriptNames
      | _ => [] }

/-- GIExtension.__rename_page_link: __translated_names.get(original_name). -/
def renamePageLink (st : ExtState) (originalName : String) : Option String :=
  lookupAssoc st.translatedNames originalName

/-- The body of the language loop of GIExtension.format_page for one
language: set the formatter fundamentals (GIHtmlFormatter.set_fundamentals
lives in gi_html_formatter.py; modelled from the spec as storing the
language whose fundamentals the formatter uses), set up the language,
create the per-language output directory when missing, and format the
page into it (the host BaseExtension.format_page call, recorded as the
output directory in formatted). -/
def formatLang (base : String) (st : ExtState) (l : String) : ExtState :=
  let st1 := {st with fundamentals := l}
  let st2 := setupLanguage st1 (some l)
  let out := pathJoin base l
  let st3 := if out ∈ st2.dirs then st2 else {st2 with dirs := st2.dirs ++ [out]}
  {st3 with formatted := st3.formatted ++ [out]}

/-- GIExtension.format_page: run the loop body once per configured
language, then reset the language to None and the fundamentals to c. -/
def formatPage (base : String) (st : ExtState) : ExtState :=
  let st' := st.languages.foldl (formatLang base) st
  let st'' := setupLanguage st' none
  {st'' with fundamentals := "c"}

/-- Python str.lower, character by character. -/
def pyLower (s : String) : String := String.mk (s.data.map Char.toLower)

/-- The language-list normalisation in GIExtension.__init__: lower-case
the configured languages, and when c is among them remove its first
occurrence and reinsert it at the front. -/
def initLanguages (cfg : List String) : List String :=
  let ls := cfg.map pyLower
  if "c" ∈ ls then "c" :: ls.erase "c" else ls

/-- A comment as patch_comments sees it: source file, start and end
lines, and the raw text that will replace those lines. -/
structure CComment where
  filename : String
  lineno : Int
  endlineno : Int
  rawComment : String
deriving DecidableEq

/-- One call to patcher.patch: file, comment.lineno - 1, comment.endlineno,
comment.raw_comment. -/
structure PatchCall where
  filename : String
  startLine : Int
  endLine : Int
  text : String
deriving DecidableEq

def mkPatchCall (c : CComment) : PatchCall :=
  { filename := c.filename, startLine := c.lineno - 1, endLine := c.endlineno,
    text := c.rawComment }

/-- The inner loop of patch_comments on one other comment: shift both
line numbers up by the removed line count when the comment is in the
same file and starts after the removed comment's end line. -/
def adjustOne (c : CComment) (o : CComment) : CComment :=
  if o.filename = c.filename ∧ o.lineno > c.endlineno then
    { o with lineno := o.lineno - (c.endlineno - c.lineno),
             endlineno := o.endlineno - (c.endlineno - c.lineno) }
  else o

/-- The inner for loop of patch_comments, which mutates each list element
in place. -/
def adjustComments (c : CComment) (cs : List CComment) : List CComment :=
  cs.map (adjustOne c)

/-- The outer for loop of patch_comments: Python iterates the list by
index while the inner loop mutates its elements, so the comment patched
at step i is read from the current list. -/
def patchLoop : Nat → Nat → List CComment → List PatchCall → List PatchCall × List CComment
  | 0, _, cs, acc => (acc, cs)
  | fuel + 1, i, cs, acc =>
    match cs[i]? with
    | none => (acc, cs)
    | some c =>
      let acc' := acc ++ [mkPatchCall c]
      let cs' := if c.rawComment = "" then adjustComments c cs else cs
      patchLoop fuel (i + 1) cs' acc'

/-- patch_comments (minus the git-commit prompt, which only reads the
final comments): emit one patch per comment and renumber later comments
of the same file whenever an emptied comment is patched out. -/
def patchComments (cs : List CComment) : List PatchCall × List CComment :=
  if cs = [] then ([], cs) else patchLoop cs.length 0 cs []

/-- Example inputs used by the witnesses are defined here, before the
theorems. -/
def exFmtState : ExtState :=
  { language := some "c", languages := ["c", "python"],
    cNames := [("A", "A")], pythonNames := [("A", "Ns.A")],
    javascriptNames := [("A", "Ns.A")], translatedNames := [],
    fundamentals := "c", signalsConnected := false,
    dirs := ["out"], formatted := [] }

def exPState : ParserState Unit :=
  { parsedFiles := ["x.gir"], nsName := some "Ns", identPfx := some "Ns",
    nsmap := [], data := () }

def exMethodNode : XNode :=
  XNode.node (clarkName coreNS "method")
    [("name", "frob"), (cIdentifierKey, "ns_foo_frob")] []

def exPropNode : XNode := XNode.node propertyTag [("name", "useless")] []

def exSigNode : XNode := XNode.node signalTag [("name", "changed")] []

def exVmNode : XNode := XNode.node virtualMethodTag [("name", "frobber")] []

def exClassNode : XNode :=
  XNode.node classTag [("name", "Foo"), (cTypeKey, "NsFoo"), ("parent", "Ns.Base")]
    [exMethodNode, exPropNode, exSigNode, exVmNode]

def exBaseNode : XNode :=
  XNode.node classTag [("name", "Base"), (cTypeKey, "NsBase")] []

def exNsNode : XNode :=
  XNode.node namespaceTag [("name", "Ns")] [exClassNode, exBaseNode]

def exRoot : XNode := XNode.node (clarkName coreNS "repository") [] [exNsNode]

def exMethodA : ANode := ([exClassNode, exNsNode, exRoot], exMethodNode)

def exClassA : ANode := ([exNsNode, exRoot], exClassNode)

def exBaseA : ANode := ([exNsNode, exRoot], exBaseNode)

def exCnList : List (String × ANode) := [("Ns.Base", exBaseA)]

def exRank (a : ANode) : Nat := if a.2.attr "parent" = none then 0 else 1

def exCacheBs : List (String × XNode) := (cacheBindingsOpt exRoot).getD []

theorem find?_assocSet_map (m : List (String × String)) (k v : String)
    (h : m.any (fun p => p.1 == k) = true) :
    (m.map (fun p => if p.1 == k then (k, v) else p)).find? (fun p => p.1 == k) =
      some (k, v) := by
  induction m with
  | nil => simp at h
  | cons p m ih =>
    by_cases hpk : p.1 = k
    · have hif : (if p.1 == k then (k, v) else p) = (k, v) := by simp [hpk]
      rw [List.map_cons, hif, List.find?_cons]
      simp
    · have hp : (p.1 == k) = false := by simp [hpk]
      have hif : (if p.1 == k then (k, v) else p) = p := by simp [hpk]
      simp only [List.any_cons, hp, Bool.false_or] at h
      rw [List.map_cons, hif, List.find?_cons]
      simp only [hp]
      exact ih h

theorem lookupAssoc_assocSet (m : List (String × String)) (k v : String) :
    lookupAssoc (assocSet m k v) k = some v := by
  unfold assocSet
  by_cases ha : m.any (fun p => p.1 == k) = true
  · rw [if_pos ha]
    unfold lookupAssoc
    rw [find?_assocSet_map m k v ha]
    rfl
  · rw [if_neg ha]
    unfold lookupAssoc
    have ha' : m.any (fun p => p.1 == k) = false := Bool.not_eq_true _ ▸ ha
    have hnone : m.find? (fun p => p.1 == k) = none := by
      rw [List.find?_eq_none]
      intro x hx
      exact fun hc => (List.any_eq_false.mp ha') x hx hc
    rw [List.find?_append, hnone]
    simp

theorem protoLast_append (fst : List String) (lst : String) :
    protoLast (fst ++ [lst]) = fst ++ ["prototype." ++ lst] := by
  induction fst with
  | nil => rfl
  | cons x xs ih =>
    cases h : xs ++ [lst] with
    | nil => exact absurd h (by simp)
    | cons y ys =>
      simp only [List.cons_append, h, protoLast]
      rw [← h, ih]

theorem mapM_mem_option {α β : Type} (f : α → Option β) :
    ∀ (l : List α) (l' : List β), l.mapM f = some l' →
      ∀ x ∈ l, ∀ y, f x = some y → y ∈ l' := by
  intro l
  induction l with
  | nil => intro l' _ x hx; cases hx
  | cons a l ih =>
    intro l' h x hx y hy
    rw [List.mapM_cons] at h
    cases hfa : f a with
    | none => rw [hfa] at h; simp at h
    | some b =>
      rw [hfa] at h
      cases hml : l.mapM f with
      | none => rw [hml] at h; simp at h
      | some bs =>
        rw [hml] at h
        simp at h
        cases hx with
        | head =>
          rw [hfa] at hy
          injection hy with hy
          rw [← h, ← hy]
          exact List.mem_cons_self _ _
        | tail _ hx' =>
          rw [← h]
          exact List.mem_cons_of_mem _ (ih bs hml x hx' y hy)

theorem lookup_unique (bs : List (String × XNode)) (k : String) (n : XNode)
    (hm : (k, n) ∈ bs) (hu : ∀ m, (k, m) ∈ bs → m = n) :
    nodeCacheLookup bs k = some n := by
  unfold nodeCacheLookup
  cases hf : bs.reverse.find? (fun p => p.1 == k) with
  | none =>
    rw [List.find?_eq_none] at hf
    exact absurd (by simp : ((k, n).1 == k) = true)
      (hf (k, n) (List.mem_reverse.mpr hm))
  | some pr =>
    have hmem : pr ∈ bs := List.mem_reverse.mp (List.mem_of_find?_eq_some hf)
    have hk : pr.1 = k := by simpa using List.find?_some hf
    have hn : pr.2 = n := hu pr.2 (by rw [← hk]; exact hmem)
    simp [hn]

theorem formatLang_formatted (base : String) (st : ExtState) (l : String) :
    (formatLang base st l).formatted = st.formatted ++ [pathJoin base l] := by
  simp only [formatLang, setupLanguage]
  split <;> rfl

theorem formatLang_languages (base : String) (st : ExtState) (l : String) :
    (formatLang base st l).languages = st.languages := by
  simp only [formatLang, setupLanguage]
  split <;> rfl

theorem formatLang_dirs_sub (base : String) (st : ExtState) (l : String) :
    st.dirs ⊆ (formatLang base st l).dirs := by
  simp only [formatLang, setupLanguage]
  split
  · exact fun x h => h
  · exact fun x h => List.mem_append_left _ h

theorem formatLang_dirs_mem (base : String) (st : ExtState) (l : String) :
    pathJoin base l ∈ (formatLang base st l).dirs := by
  simp only [formatLang, setupLanguage]
  split
  · next h => exact h
  · exact List.mem_append_right _ (List.mem_singleton.mpr rfl)

theorem foldl_formatted (base : String) :
    ∀ (ls : List String) (st : ExtState),
      (ls.foldl (formatLang base) st).formatted = st.formatted ++ ls.map (pathJoin base) := by
  intro ls
  induction ls with
  | nil => intro st; simp
  | cons l ls ih =>
    intro st
    simp only [List.foldl_cons, List.map_cons]
    rw [ih, formatLang_formatted]
    simp

theorem foldl_dirs_sub (base : String) :
    ∀ (ls : List String) (st : ExtState),
      st.dirs ⊆ (ls.foldl (formatLang base) st).dirs := by
  intro ls
  induction ls with
  | nil => intro st; exact fun x h => h
  | cons l ls ih =>
    intro st
    simp only [List.foldl_cons]
    exact fun x h => ih (formatLang base st l) (formatLang_dirs_sub base st l h)

theorem foldl_dirs_mem (base : String) :
    ∀ (ls : List String) (st : ExtState) (l : String), l ∈ ls →
      pathJoin base l ∈ (ls.foldl (formatLang base) st).dirs := by
  intro ls
  induction ls with
  | nil => intro st l h; cases h
  | cons l' ls ih =>
    intro st l h
    simp only [List.foldl_cons]
    cases h with
    | head =>
      exact foldl_dirs_sub base ls (formatLang base st l') (formatLang_dirs_mem base st l')
    | tail _ h' => exact ih (formatLang base st l') l h'

/-- C6: if a symbol's unique name has no entry in the node cache,
__update_symbol returns the empty list and leaves the symbol unchanged,
whatever the enrichment callees would do. -/
theorem update_symbol_cache_miss (bs : List (String × XNode))
    (updFn : PySymbol → XNode → PySymbol)
    (updSt : PySymbol → XNode → List PySymbol × PySymbol)
    (sym : PySymbol)
    (h : nodeCacheLookup bs sym.uniqueName = none) :
    updateSymbol (nodeCacheLookup bs) updFn updSt sym = ([], sym) := by
  unfold updateSymbol
  rw [h]

theorem update_symbol_cache_miss_witness :
    nodeCacheLookup [] "gtk_widget_show" = none ∧
    updateSymbol (nodeCacheLookup []) (fun s _ => s) (fun s _ => ([], s))
      { uniqueName := "gtk_widget_show", kind := SymKind.function } =
      ([], { uniqueName := "gtk_widget_show", kind := SymKind.function }) :=
  ⟨rfl, update_symbol_cache_miss [] (fun s _ => s) (fun s _ => ([], s))
    { uniqueName := "gtk_widget_show", kind := SymKind.function } rfl⟩

/-- C7: format_page formats the page once per configured language, in
order, into the per-language subdirectory of the base output directory,
which it ensures exists, and afterwards resets the language to None
(emptying the translated-name table) and the fundamentals to c. -/
theorem format_page_per_language (base : String) (st : ExtState) :
    (formatPage base st).formatted = st.formatted ++ st.languages.map (pathJoin base) ∧
    (formatPage base st).language = none ∧
    (formatPage base st).fundamentals = "c" ∧
    (formatPage base st).translatedNames = [] ∧
    st.dirs ⊆ (formatPage base st).dirs ∧
    ∀ l ∈ st.languages, pathJoin base l ∈ (formatPage base st).dirs := by
  refine ⟨?_, rfl, rfl, rfl, ?_, ?_⟩
  · simp only [formatPage, setupLanguage]
    exact foldl_formatted base st.languages st
  · simp only [formatPage, setupLanguage]
    exact foldl_dirs_sub base st.languages st
  · intro l hl
    simp only [formatPage, setupLanguage]
    exact foldl_dirs_mem base st.languages st l hl

theorem format_page_per_language_witness :
    pathJoin "out" "python" ∈ (formatPage "out" exFmtState).dirs :=
  (format_page_per_language "out" exFmtState).2.2.2.2.2 "python" (by decide)

/-- C8: when c is among the configured languages (after lower-casing),
__init__ moves its first occurrence to the front of self.languages,
keeping the remaining languages in their original relative order, so
format_page formats the C output first. -/
theorem languages_c_first (cfg : List String)
    (h : "c" ∈ cfg.map pyLower) :
    initLanguages cfg = "c" :: (cfg.map pyLower).erase "c" ∧
    ((cfg.map pyLower).erase "c").Sublist (cfg.map pyLower) ∧
    ∀ (base : String) (st : ExtState), st.languages = initLanguages cfg →
      (formatPage base st).formatted =
        st.formatted ++ pathJoin base "c" ::
          ((cfg.map pyLower).erase "c").map (pathJoin base) := by
  refine ⟨by simp [initLanguages, h], List.erase_sublist _ _, ?_⟩
  intro base st hst
  have h1 : (formatPage base st).formatted =
      st.formatted ++ st.languages.map (pathJoin base) := by
    simp only [formatPage, setupLanguage]
    exact foldl_formatted base st.languages st
  rw [h1, hst]
  simp [initLanguages, h]

theorem languages_c_first_witness :
    initLanguages ["Python", "C"] = ["c", "python"] := by
  rw [(languages_c_first ["Python", "C"] (by decide)).1]
  decide

/-- C9: setup_language installs the C, Python or JavaScript name table
for those languages and the empty table for anything else (None
included), after which __rename_page_link returns None for every name. -/
theorem setup_language_tables (st : ExtState) :
    (setupLanguage st (some "c")).translatedNames = st.cNames ∧
    (setupLanguage st (some "python")).translatedNames = st.pythonNames ∧
    (setupLanguage st (some "javascript")).translatedNames = st.javascriptNames ∧
    ∀ l : Option String,
      l ∉ ([some "c", some "python", some "javascript"] : List (Option String)) →
      (setupLanguage st l).translatedNames = [] ∧
      ∀ nm, renamePageLink (setupLanguage st l) nm = none := by
  refine ⟨rfl, rfl, rfl, ?_⟩
  intro l hl
  have ht : (setupLanguage st l).translatedNames = [] := by
    simp only [setupLanguage]
    split
    · simp at hl
    · simp at hl
    · simp at hl
    · rfl
  exact ⟨ht, fun nm => by simp [renamePageLink, ht, lookupAssoc]⟩

theorem setup_language_tables_witness :
    renamePageLink (setupLanguage exFmtState (some "ruby")) "A" = none :=
  ((setup_language_tables exFmtState).2.2.2 (some "ruby") (by decide)).2 "A"

/-- C10: when patch_comments patches out a comment whose raw text is
empty, the list mutation it performs is exactly adjustComments: every
comment of the same file starting after the removed comment's end line
is shifted up by its line count, and every comment in another file or
at or before that end line is untouched, positions preserved. -/
theorem patch_comments_renumber (c : CComment) (cs : List CComment)
    (hraw : c.rawComment = "") :
    (∀ (fuel i : Nat) (acc : List PatchCall), cs[i]? = some c →
      patchLoop (fuel + 1) i cs acc =
        patchLoop fuel (i + 1) (adjustComments c cs) (acc ++ [mkPatchCall c])) ∧
    adjustComments c cs = cs.map (adjustOne c) ∧
    ∀ o ∈ cs,
      (o.filename = c.filename → o.lineno > c.endlineno →
        adjustOne c o = { o with lineno := o.lineno - (c.endlineno - c.lineno),
                                 endlineno := o.endlineno - (c.endlineno - c.lineno) }) ∧
      (o.filename ≠ c.filename → adjustOne c o = o) ∧
      (o.lineno ≤ c.endlineno → adjustOne c o = o) := by
  refine ⟨?_, rfl, ?_⟩
  · intro fuel i acc hi
    simp [patchLoop, hi, hraw]
  · intro o _
    refine ⟨?_, ?_, ?_⟩
    · intro h1 h2
      simp [adjustOne, h1, h2]
    · intro h1
      have hc : ¬(o.filename = c.filename ∧ o.lineno > c.endlineno) :=
        fun hh => h1 hh.1
      simp [adjustOne, hc]
    · intro h1
      have hc : ¬(o.filename = c.filename ∧ o.lineno > c.endlineno) :=
        fun hh => absurd hh.2 (not_lt.mpr h1)
      simp [adjustOne, hc]

theorem patch_comments_renumber_witness :
    adjustOne { filename := "a.c", lineno := 10, endlineno := 14, rawComment := "" }
      { filename := "a.c", lineno := 20, endlineno := 25, rawComment := "x" } =
      { filename := "a.c", lineno := 16, endlineno := 21, rawComment := "x" } := by
  have h := (patch_comments_renumber
    { filename := "a.c", lineno := 10, endlineno := 14, rawComment := "" }
    [{ filename := "a.c", lineno := 20, endlineno := 25, rawComment := "x" }] rfl).2.2
    { filename := "a.c", lineno := 20, endlineno := 25, rawComment := "x" }
    (List.mem_singleton.mpr rfl)
  rw [h.1 rfl (by decide)]
  decide

/-- C1: __add_translations records, for a node carrying a c:identifier
(invoked with that identifier as the unique name), the Python name as
the dot-joined GI name components, the JavaScript name as the same
components with prototype. prefixed to the last, and the C name as the
identifier; for a node carrying only a c:type (invoked with that type
name) all three names are the dotted GI name or the type name itself. -/
theorem add_translations_names (st : ExtState) (uniqueName : String) (a : ANode)
    (comps : List String) (hc : giNameComponents a = some comps) :
    (∀ cid, a.2.attr cIdentifierKey = some cid → uniqueName = cid →
      ∃ st' comps' gi, addTranslations st uniqueName a = some (st', comps', gi) ∧
        lookupAssoc st'.pythonNames uniqueName = some (String.intercalate "." comps) ∧
        (∀ fst lst, comps = fst ++ [lst] →
          lookupAssoc st'.javascriptNames uniqueName =
            some (String.intercalate "." (fst ++ ["prototype." ++ lst]))) ∧
        lookupAssoc st'.cNames uniqueName = some cid) ∧
    (a.2.attr cIdentifierKey = none → ∀ t, a.2.attr cTypeKey = some t → uniqueName = t →
      ∃ st' comps' gi, addTranslations st uniqueName a = some (st', comps', gi) ∧
        lookupAssoc st'.pythonNames uniqueName = some (String.intercalate "." comps) ∧
        lookupAssoc st'.javascriptNames uniqueName = some (String.intercalate "." comps) ∧
        lookupAssoc st'.cNames uniqueName = some t) := by
  constructor
  · intro cid hid huq
    refine ⟨{st with
        pythonNames := assocSet st.pythonNames uniqueName (String.intercalate "." comps),
        javascriptNames :=
          assocSet st.javascriptNames uniqueName (String.intercalate "." (protoLast comps)),
        cNames := assocSet st.cNames uniqueName uniqueName},
      protoLast comps, String.intercalate "." comps, ?_, ?_, ?_, ?_⟩
    · simp [addTranslations, hc, hid]
    · exact lookupAssoc_assocSet _ _ _
    · intro fst lst hsplit
      rw [hsplit, protoLast_append]
      have := lookupAssoc_assocSet st.javascriptNames uniqueName
        (String.intercalate "." (protoLast comps))
      rw [hsplit, protoLast_append] at this
      exact this
    · rw [huq]
      have := lookupAssoc_assocSet st.cNames uniqueName uniqueName
      rw [huq] at this
      exact this
  · intro hid t ht huq
    refine ⟨{st with
        pythonNames := assocSet st.pythonNames uniqueName (String.intercalate "." comps),
        javascriptNames := assocSet st.javascriptNames uniqueName (String.intercalate "." comps),
        cNames := assocSet st.cNames uniqueName uniqueName},
      comps, String.intercalate "." comps, ?_, ?_, ?_, ?_⟩
    · simp [addTranslations, hc, hid, ht]
    · exact lookupAssoc_assocSet _ _ _
    · exact lookupAssoc_assocSet _ _ _
    · rw [huq]
      have := lookupAssoc_assocSet st.cNames uniqueName uniqueName
      rw [huq] at this
      exact this

theorem add_translations_names_witness :
    ∃ st' comps' gi,
      addTranslations exFmtState "ns_foo_frob" exMethodA = some (st', comps', gi) ∧
      lookupAssoc st'.pythonNames "ns_foo_frob" = some "Ns.Foo.frob" ∧
      lookupAssoc st'.javascriptNames "ns_foo_frob" = some "Ns.Foo.prototype.frob" ∧
      lookupAssoc st'.cNames "ns_foo_frob" = some "ns_foo_frob" := by
  obtain ⟨st', comps', gi, h1, h2, h3, h4⟩ :=
    (add_translations_names exFmtState "ns_foo_frob" exMethodA ["Ns", "Foo", "frob"]
      (by decide)).1 "ns_foo_frob" (by decide) rfl
  have e2 : String.intercalate "." ["Ns", "Foo", "frob"] = "Ns.Foo.frob" := by decide
  have h3' := h3 ["Ns", "Foo"] "frob" rfl
  have e3 : String.intercalate "." (["Ns", "Foo"] ++ ["prototype." ++ "frob"]) =
      "Ns.Foo.prototype.frob" := by decide
  rw [e2] at h2
  rw [e3] at h3'
  exact ⟨st', comps', gi, h1, h2, h3', h4⟩

theorem hierLoop_parentChain (cn : String → Option ANode) :
    ∀ (fuel : Nat) (k : ANode) (acc : List QSym) (cm : ChildrenMap),
      (hierLoop cn fuel k acc cm).map Prod.fst =
        (parentChain cn fuel k).map
          (fun ps => acc ++ ps.map (fun p => QSym.mk (getKlassName p.2))) := by
  intro fuel
  induction fuel with
  | zero => intro k acc cm; rfl
  | succ fuel ih =>
    intro k acc cm
    simp only [hierLoop, parentChain]
    cases hs : parentStep cn k with
    | done => simp
    | err => simp
    | next q p =>
      simp only
      rw [ih]
      cases parentChain cn fuel p with
      | none => simp
      | some ps => simp

/-- C3: __create_hierarchy returns, for every class node, the walk along
parent attributes (one QualifiedSymbol per ancestor) in reverse order,
root-most ancestor first and immediate parent last; a class node without
a parent attribute yields the empty list (and leaves the children map
untouched). -/
theorem create_hierarchy_order (cn : String → Option ANode) :
    (∀ (fuel : Nat) (k : ANode) (cm : ChildrenMap),
      (createHierarchy cn fuel k cm).map Prod.fst =
        (parentChain cn fuel k).map
          (fun ps => (ps.map (fun p => QSym.mk (getKlassName p.2))).reverse)) ∧
    (∀ (fuel : Nat) (k : ANode) (cm : ChildrenMap), k.2.attr "parent" = none →
      createHierarchy cn (fuel + 1) k cm = some ([], cm)) := by
  constructor
  · intro fuel k cm
    have h := hierLoop_parentChain cn fuel k [] cm
    unfold createHierarchy
    rw [Option.map_map]
    have hcomp :
        (Prod.fst ∘ fun r : List QSym × ChildrenMap => (r.1.reverse, r.2)) =
          fun r : List QSym × ChildrenMap => r.1.reverse := rfl
    rw [hcomp]
    have h2 : (fun r : List QSym × ChildrenMap => r.1.reverse) =
        (List.reverse ∘ Prod.fst) := rfl
    rw [h2, ← Option.map_map, h, Option.map_map]
    cases parentChain cn fuel k with
    | none => rfl
    | some ps => simp
  · intro fuel k cm hp
    have hstep : parentStep cn k = .done := by simp [parentStep, hp]
    simp [createHierarchy, hierLoop, hstep]

theorem create_hierarchy_order_witness :
    createHierarchy (fun _ => none) 1 (([], XNode.node "x" [] []) : ANode) [] =
      some ([], []) :=
  (create_hierarchy_order (fun _ => none)).2 0 ([], XNode.node "x" [] []) [] (by decide)

theorem parentStep_next_lookup (cn : String → Option ANode) (a : ANode) (q : String)
    (p : ANode) (h : parentStep cn a = .next q p) : cn q = some p := by
  unfold parentStep at h
  split at h
  · exact StepRes.noConfusion h
  · split at h
    · exact StepRes.noConfusion h
    · split at h
      · exact StepRes.noConfusion h
      · split at h
        · exact StepRes.noConfusion h
        · rename_i p' hcn
          injection h with h1 h2
          subst h1
          subst h2
          exact hcn

theorem lookupANode_mem (cnList : List (String × ANode)) (q : String) (p : ANode)
    (h : lookupANode cnList q = some p) : p ∈ cnList.map Prod.snd := by
  unfold lookupANode at h
  cases hf : cnList.find? (fun r => r.1 == q) with
  | none => rw [hf] at h; cases h
  | some pr =>
    rw [hf] at h
    simp at h
    rw [← h]
    exact List.mem_map_of_mem Prod.snd (List.mem_of_find?_eq_some hf)

/-- C4: with every parent reference resolving through the class-node
table and a rank certifying the parent relation acyclic (each step
strictly decreases it), the while loop of __create_hierarchy terminates
for every starting class node, given fuel beyond the start's rank. -/
theorem create_hierarchy_terminates (cnList : List (String × ANode)) (rank : ANode → Nat)
    (Hlist : (cnList.map Prod.snd).all (stepOkB (lookupANode cnList) rank) = true) :
    ∀ (fuel : Nat) (k : ANode), stepOkB (lookupANode cnList) rank k = true →
      rank k < fuel → ∀ (acc : List QSym) (cm : ChildrenMap),
        ∃ r, hierLoop (lookupANode cnList) fuel k acc cm = some r := by
  intro fuel
  induction fuel with
  | zero => intro k _ hlt; omega
  | succ fuel ih =>
    intro k hk hlt acc cm
    cases hs : parentStep (lookupANode cnList) k with
    | done =>
      refine ⟨(acc, cm), ?_⟩
      unfold hierLoop
      rw [hs]
    | err =>
      unfold stepOkB at hk
      rw [hs] at hk
      cases hk
    | next q p =>
      have hcn : lookupANode cnList q = some p := parentStep_next_lookup _ _ _ _ hs
      have hmem : p ∈ cnList.map Prod.snd := lookupANode_mem _ _ _ hcn
      have hpok : stepOkB (lookupANode cnList) rank p = true :=
        List.all_eq_true.mp Hlist p hmem
      have hrank : rank p < rank k := by
        unfold stepOkB at hk
        rw [hs] at hk
        exact of_decide_eq_true hk
      obtain ⟨r, hr⟩ := ih p hpok (by omega) (acc ++ [QSym.mk (getKlassName p.2)])
        (updateChildren cm q (getKlassName k.2))
      refine ⟨r, ?_⟩
      unfold hierLoop
      rw [hs]
      exact hr

theorem create_hierarchy_terminates_witness :
    ∃ r, hierLoop (lookupANode exCnList) 2 exClassA [] [] = some r :=
  create_hierarchy_terminates exCnList exRank (by decide) 2 exClassA (by decide)
    (by decide) [] []

/-- C2: after __cache_nodes processes a GIR root, the recorded insertion
sequence contains every element with a c:identifier under that
identifier, every non-core:type, non-core:array element with a c:type
under that name, class elements additionally under name::name,
properties under parent:name, signals under parent::name and virtual
methods under parent:::name; and dict lookup returns the node bound to
a key whenever that key is bound consistently. -/
theorem cache_nodes_mapping (root : XNode) (bs : List (String × XNode))
    (hbs : cacheBindingsOpt root = some bs) :
    (∀ a ∈ descendantsFrom [] root,
      (∀ v, a.2.attr cIdentifierKey = some v → (v, a.2) ∈ bs) ∧
      (∀ v, a.2.attr cTypeKey = some v → a.2.tag ≠ coreTypeTag → a.2.tag ≠ coreArrayTag →
        (v, a.2) ∈ bs ∧ (a.2.tag = classTag → (v ++ "::" ++ v, a.2) ∈ bs)) ∧
      (a.2.tag = propertyTag → ∀ par ps pt nm, a.1 = par :: ps →
        par.attr cTypeKey = some pt → a.2.attr "name" = some nm →
        (pt ++ ":" ++ nm, a.2) ∈ bs) ∧
      (a.2.tag = signalTag → ∀ par ps pt nm, a.1 = par :: ps →
        par.attr cTypeKey = some pt → a.2.attr "name" = some nm →
        (pt ++ "::" ++ nm, a.2) ∈ bs) ∧
      (a.2.tag = virtualMethodTag → ∀ par ps pt nm, a.1 = par :: ps →
        par.attr cTypeKey = some pt → a.2.attr "name" = some nm →
        (pt ++ ":::" ++ nm, a.2) ∈ bs)) ∧
    (∀ k n, (k, n) ∈ bs → (∀ m, (k, m) ∈ bs → m = n) → nodeCacheLookup bs k = some n) := by
  have hinv : ∃ p3 p4 p5, propBindings root = some p3 ∧ sigBindings root = some p4 ∧
      vmethodBindings root = some p5 ∧
      bs = identBindings root ++ typeBindings root ++ p3 ++ p4 ++ p5 := by
    unfold cacheBindingsOpt at hbs
    split at hbs
    · split at hbs
      · rename_i p3 p4 p5 h3 h4 h5
        injection hbs with hbs
        exact ⟨p3, p4, p5, h3, h4, h5, hbs.symm⟩
      · exact Option.noConfusion hbs
    · exact Option.noConfusion hbs
  obtain ⟨p3, p4, p5, h3, h4, h5, hbseq⟩ := hinv
  constructor
  · intro a ha
    refine ⟨?_, ?_, ?_, ?_, ?_⟩
    · intro v hv
      have hm : (v, a.2) ∈ identBindings root :=
        List.mem_filterMap.mpr ⟨a, ha, by rw [hv]; rfl⟩
      rw [hbseq]
      simp only [List.mem_append]
      exact Or.inl (Or.inl (Or.inl (Or.inl hm)))
    · intro v hv hnt hna
      have hcond : ¬(a.2.tag = coreTypeTag ∨ a.2.tag = coreArrayTag) := by tauto
      constructor
      · have hm : (v, a.2) ∈ typeBindings root := by
          apply List.mem_flatMap.mpr
          refine ⟨a, ha, ?_⟩
          rw [if_neg hcond, hv]
          exact List.mem_cons_self _ _
        rw [hbseq]
        simp only [List.mem_append]
        exact Or.inl (Or.inl (Or.inl (Or.inr hm)))
      · intro hcl
        have hm : (v ++ "::" ++ v, a.2) ∈ typeBindings root := by
          apply List.mem_flatMap.mpr
          refine ⟨a, ha, ?_⟩
          rw [if_neg hcond, hv]
          refine List.mem_cons_of_mem _ ?_
          rw [if_pos hcl]
          exact List.mem_cons_self _ _
        rw [hbseq]
        simp only [List.mem_append]
        exact Or.inl (Or.inl (Or.inl (Or.inr hm)))
    · intro htag par ps pt nm hanc hpt hnm
      have hsel : a ∈ (descendantsFrom [] root).filter (fun x => x.2.tag = propertyTag) :=
        List.mem_filter.mpr ⟨ha, by simp [htag]⟩
      have hitem : propItem a = some (pt ++ ":" ++ nm, a.2) := by
        simp [propItem, hanc, hpt, hnm]
      have hm := mapM_mem_option propItem _ p3 h3 a hsel _ hitem
      rw [hbseq]
      simp only [List.mem_append]
      exact Or.inl (Or.inl (Or.inr hm))
    · intro htag par ps pt nm hanc hpt hnm
      have hsel : a ∈ (descendantsFrom [] root).filter (fun x => x.2.tag = signalTag) :=
        List.mem_filter.mpr ⟨ha, by simp [htag]⟩
      have hitem : sigItem a = some (pt ++ "::" ++ nm, a.2) := by
        simp [sigItem, hanc, hpt, hnm]
      have hm := mapM_mem_option sigItem _ p4 h4 a hsel _ hitem
      rw [hbseq]
      simp only [List.mem_append]
      exact Or.inl (Or.inr hm)
    · intro htag par ps pt nm hanc hpt hnm
      have hsel : a ∈ (descendantsFrom [] root).filter
          (fun x => x.2.tag = virtualMethodTag) :=
        List.mem_filter.mpr ⟨ha, by simp [htag]⟩
      have hitem : vmethodItem a = some (pt ++ ":::" ++ nm, a.2) := by
        simp [vmethodItem, hanc, hpt, hnm]
      have hm := mapM_mem_option vmethodItem _ p5 h5 a hsel _ hitem
      rw [hbseq]
      simp only [List.mem_append]
      exact Or.inr hm
  · exact fun k n hm hu => lookup_unique bs k n hm hu

theorem cache_nodes_mapping_witness :
    cacheBindingsOpt exRoot = some exCacheBs ∧
    ("ns_foo_frob", exMethodNode) ∈ exCacheBs ∧
    ("NsFoo:useless", exPropNode) ∈ exCacheBs ∧
    ("NsFoo::changed", exSigNode) ∈ exCacheBs ∧
    ("NsFoo:::frobber", exVmNode) ∈ exCacheBs ∧
    ("NsFoo::NsFoo", exClassNode) ∈ exCacheBs := by
  have hbs : cacheBindingsOpt exRoot = some exCacheBs := by rfl
  have h := (cache_nodes_mapping exRoot exCacheBs hbs).1
  refine ⟨hbs, ?_, ?_, ?_, ?_, ?_⟩
  · exact (h exMethodA (by decide)).1 "ns_foo_frob" (by decide)
  · exact (h (([exClassNode, exNsNode, exRoot], exPropNode) : ANode) (by decide)).2.2.1
      (by decide) exClassNode [exNsNode, exRoot] "NsFoo" "useless" rfl (by decide) (by decide)
  · exact (h (([exClassNode, exNsNode, exRoot], exSigNode) : ANode) (by decide)).2.2.2.1
      (by decide) exClassNode [exNsNode, exRoot] "NsFoo" "changed" rfl (by decide) (by decide)
  · exact (h (([exClassNode, exNsNode, exRoot], exVmNode) : ANode) (by decide)).2.2.2.2
      (by decide) exClassNode [exNsNode, exRoot] "NsFoo" "frobber" rfl (by decide) (by decide)
  · exact ((h exClassA (by decide)).2.1 "NsFoo" (by decide) (by decide) (by decide)).2
      (by decide)

theorem setNamespaceInfo_parsedFiles {α : Type} (st : ParserState α) (gf : GirFile)
    (st2 : ParserState α) (h : setNamespaceInfo st gf = some st2) :
    st2.parsedFiles = st.parsedFiles := by
  unfold setNamespaceInfo at h
  split at h
  · split at h
    · exact Option.noConfusion h
    · split at h
      · cases h; rfl
      · exact Option.noConfusion h
  · cases h; rfl

theorem parseChildrenWith_mono {α : Type} (resolve : String → Option String)
    (pf : ParserState α → String → Option (ParserState α))
    (procNs : List (String × String) → α → XNode → α)
    (hpf : ∀ st p st', pf st p = some st' → ∀ q ∈ st.parsedFiles, q ∈ st'.parsedFiles) :
    ∀ (cs : List XNode) (st st' : ParserState α),
      parseChildrenWith resolve pf procNs st cs = some st' →
      ∀ q ∈ st.parsedFiles, q ∈ st'.parsedFiles := by
  intro cs
  induction cs with
  | nil =>
    intro st st' h q hq
    cases h
    exact hq
  | cons c rest ih =>
    intro st st' h q hq
    unfold parseChildrenWith at h
    split at h
    · exact ih _ _ h q hq
    · split at h
      · split at h
        · split at h
          · exact Option.noConfusion h
          · split at h
            · exact Option.noConfusion h
            · rename_i st1 hpf1
              exact ih _ _ h q (hpf _ _ _ hpf1 q hq)
        · exact Option.noConfusion h
      · exact ih _ _ h q hq

theorem parseGirFile_mono {α : Type} (files : String → Option GirFile)
    (resolve : String → Option String) (procNs : List (String × String) → α → XNode → α) :
    ∀ (fuel : Nat) (st : ParserState α) (path : String) (st' : ParserState α),
      parseGirFile files resolve procNs fuel st path = some st' →
      ∀ q ∈ st.parsedFiles, q ∈ st'.parsedFiles := by
  intro fuel
  induction fuel with
  | zero => intro st path st' h; exact Option.noConfusion h
  | succ fuel ih =>
    intro st path st' h q hq
    unfold parseGirFile at h
    split at h
    · cases h; exact hq
    · split at h
      · exact Option.noConfusion h
      · split at h
        · exact Option.noConfusion h
        · rename_i gf hgf st2 hst2
          have hq2 : q ∈ st2.parsedFiles := by
            rw [setNamespaceInfo_parsedFiles _ _ _ hst2]
            exact List.mem_append_left _ hq
          exact parseChildrenWith_mono resolve _ procNs
            (fun s p s' hh => ih s p s' hh) _ _ _ h q hq2

theorem parseGirFile_records {α : Type} (files : String → Option GirFile)
    (resolve : String → Option String) (procNs : List (String × String) → α → XNode → α) :
    ∀ (fuel : Nat) (st : ParserState α) (path : String) (st' : ParserState α),
      parseGirFile files resolve procNs fuel st path = some st' →
      path ∈ st'.parsedFiles := by
  intro fuel
  cases fuel with
  | zero => intro st path st' h; exact Option.noConfusion h
  | succ fuel =>
    intro st path st' h
    unfold parseGirFile at h
    split at h
    · rename_i hmem
      cases h
      exact hmem
    · split at h
      · exact Option.noConfusion h
      · split at h
        · exact Option.noConfusion h
        · rename_i gf hgf st2 hst2
          have h1 : path ∈ st2.parsedFiles := by
            rw [setNamespaceInfo_parsedFiles _ _ _ hst2]
            exact List.mem_append_right _ (List.mem_singleton.mpr rfl)
          exact parseChildrenWith_mono resolve _ procNs
            (fun s p s' hh => parseGirFile_mono files resolve procNs fuel s p s' hh)
            _ _ _ h path h1

/-- C5: __parse_gir_file records each parsed path and returns at once,
with the parser state unchanged, when called on a path already recorded
(so a second call after a successful one is a no-op), and the include
loop of __cache_nodes skips an included gir file whose resolved path is
already in the parsed set, so no file contributes to the index twice. -/
theorem gir_parse_one_pass {α : Type} (files : String → Option GirFile)
    (resolve : String → Option String)
    (procNs : List (String × String) → α → XNode → α) :
    (∀ (fuel : Nat) (st : ParserState α) (path : String), path ∈ st.parsedFiles →
      parseGirFile files resolve procNs (fuel + 1) st path = some st) ∧
    (∀ (fuel : Nat) (st st' : ParserState α) (path : String),
      parseGirFile files resolve procNs fuel st path = some st' →
      path ∈ st'.parsedFiles ∧ ∀ q ∈ st.parsedFiles, q ∈ st'.parsedFiles) ∧
    (∀ (fuel fuel' : Nat) (st st' : ParserState α) (path : String),
      parseGirFile files resolve procNs fuel st path = some st' →
      parseGirFile files resolve procNs (fuel' + 1) st' path = some st') ∧
    (∀ (recur : CState → XNode → Option CState) (cst : CState) (inc : XNode)
      (rest : List XNode) (nm ver path : String),
      inc.tag = includeTag → inc.attr "name" = some nm → inc.attr "version" = some ver →
      resolve (nm ++ "-" ++ ver ++ ".gir") = some path → path ∈ cst.parsedGirs →
      procIncludesWith resolve files recur cst (inc :: rest) =
        procIncludesWith resolve files recur cst rest) := by
  refine ⟨?_, ?_, ?_, ?_⟩
  · intro fuel st path hmem
    unfold parseGirFile
    rw [if_pos hmem]
  · intro fuel st st' path h
    exact ⟨parseGirFile_records files resolve procNs fuel st path st' h,
      parseGirFile_mono files resolve procNs fuel st path st' h⟩
  · intro fuel fuel' st st' path h
    have hmem : path ∈ st'.parsedFiles :=
      parseGirFile_records files resolve procNs fuel st path st' h
    unfold parseGirFile
    rw [if_pos hmem]
  · intro recur cst inc rest nm ver path htag hnm hver hres hmem
    conv_lhs => unfold procIncludesWith
    rw [if_pos htag, hnm, hver]
    simp only
    rw [hres]
    simp only
    rw [if_pos hmem]

theorem gir_parse_one_pass_witness :
    parseGirFile (fun _ => none) (fun _ => none) (fun _ (u : Unit) _ => u) 1 exPState
      "x.gir" = some exPState :=
  (gir_parse_one_pass (fun _ => none) (fun _ => none) (fun _ (u : Unit) _ => u)).1 0
    exPState "x.gir" (by decide)
